import Mathlib

/-!
Verification of the upsert-and-link engine of `notion_videogames`.

The Python source is shallowly embedded: remote state (the Notion store, the
per-run `functools.lru_cache` memo, write/query counters) is passed
explicitly, machine floats of the backoff configuration are modelled as
rationals, and fallible calls return `Except`/`Option`.  Each definition
carries a pointer to the source lines it embeds.
-/

/-! ## Retry/backoff wrapper (notion.py lines 113-121)

`retrieve_or_create_from_data` is wrapped in
`tenacity.retry(retry=retry_if_exception_type((HTTPResponseError,
RequestTimeoutError)), wait=wait_random_exponential(multiplier=3.75, max=960),
stop=stop_after_attempt(10), reraise=True)`.
-/

/-- Exceptions that can escape a wrapped remote call.  `httpResponse` and
`requestTimeout` are the transient transport failures named in the retry
predicate; `missingKey` is the `ValueError` raised by `retrieve_from_data`
on a record without its natural-key attribute (igdb_notion.py lines 75-77);
`otherError` stands for any other exception. -/
inductive NotionError where
  | httpResponse
  | requestTimeout
  | missingKey
  | otherError
deriving DecidableEq, Repr

/-- The retry predicate `retry_if_exception_type((HTTPResponseError,
RequestTimeoutError))`. -/
def isRetryableError : NotionError → Bool
  | .httpResponse => true
  | .requestTimeout => true
  | .missingKey => false
  | .otherError => false

/-- The tenacity attempt loop.  `action n` is the outcome of the n-th attempt
(1-based); `remaining` is the number of further attempts the stop condition
still allows.  On a retryable error with attempts remaining the call is
retried; otherwise (`reraise=True`) the last exception is re-raised
unmodified.  The second component is the number of attempts performed. -/
def retryRun {α : Type} (action : Nat → Except NotionError α) :
    Nat → Nat → Except NotionError α × Nat
  | attempt, 0 => (action attempt, attempt)
  | attempt, remaining + 1 =>
    match action attempt with
    | .ok v => (.ok v, attempt)
    | .error e =>
      if isRetryableError e then retryRun action (attempt + 1) remaining
      else (.error e, attempt)

/-- `stop_after_attempt(10)`: attempt 1 plus at most 9 retries. -/
def tenacityCall {α : Type} (action : Nat → Except NotionError α) :
    Except NotionError α × Nat :=
  retryRun action 1 9

/-- Upper bound of the sleep drawn before the retry following attempt
`attempt`: `wait_random_exponential(multiplier=3.75, max=960)` draws
uniformly from `[0, min(3.75 * 2 ^ attempt_number, 960)]`. -/
def waitBound (attempt : Nat) : ℚ := min ((15 / 4) * 2 ^ attempt) 960

/-- The randomized wait actually drawn, with `r attempt ∈ [0, 1]` modelling
the uniform draw. -/
def drawnWait (r : Nat → ℚ) (attempt : Nat) : ℚ := r attempt * waitBound attempt

/-! ## Entity resolver and upsert engine (notion.py lines 25-134)

One entity type is modelled by its natural-key accessors and its property
serializer; the Notion side of one database is a list of pages plus counters
for query/create/update round trips. -/

/-- A materialized Notion page: its id, the natural key stored in its `ID`
number property, its serialized properties and media. -/
structure NotionPage where
  pageId : Nat
  natKey : Nat
  props : List (String × String)
  icon : Option String
  cover : Option String
deriving DecidableEq, Repr

/-- One `ConnectablePage` subclass: `hasKey`/`key` model
`hasattr(data, "id")` / `data.id`, and `get_notion_properties` is the
property serializer. -/
structure EntityOps (D : Type) where
  hasKey : D → Bool
  key : D → Nat
  get_notion_properties : D → List (String × String)

/-- The remote database state plus counters of remote round trips. -/
structure Remote where
  pages : List NotionPage
  nextId : Nat
  queryCount : Nat
  createCount : Nat
  updateCount : Nat
deriving DecidableEq, Repr

/-- Icon/cover construction in `retrieve_or_create_from_data` (notion.py
lines 128-129): `{"external": {"url": u}} if u else None`; an absent or empty
(falsy) url yields no media payload. -/
def mkExternal (u : Option String) : Option String :=
  match u with
  | none => none
  | some s => if s = "" then none else some s

/-- `IGDBNotionPage.retrieve_from_data` (igdb_notion.py lines 73-84): raise
`ValueError` when the record has no `id` attribute; otherwise one
`query().filter(property="ID", number={"equals": data.id}).first()` round
trip, returning the first page whose `ID` equals the key, or `none`. -/
def retrieve_from_data {D : Type} (ops : EntityOps D) (d : D) (r : Remote) :
    Except NotionError (Option NotionPage × Remote) :=
  if ops.hasKey d then
    .ok ((r.pages.filter (fun p => p.natKey == ops.key d)).head?,
      { r with queryCount := r.queryCount + 1 })
  else
    .error .missingKey

/-- `ConnectablePage.create_from_data` (notion.py lines 66-89): one
`pages.create` write carrying the serialized properties and media. -/
def create_from_data {D : Type} (ops : EntityOps D) (d : D)
    (icon cover : Option String) (r : Remote) : NotionPage × Remote :=
  let p : NotionPage := ⟨r.nextId, ops.key d, ops.get_notion_properties d, icon, cover⟩
  (p, { r with
        pages := r.pages ++ [p],
        nextId := r.nextId + 1,
        createCount := r.createCount + 1 })

/-- `ConnectablePage.update_from_data` (notion.py lines 91-111): one
`pages.update` write replacing the page's properties and media. -/
def update_from_data {D : Type} (ops : EntityOps D) (pid : Nat) (d : D)
    (icon cover : Option String) (r : Remote) : NotionPage × Remote :=
  let p : NotionPage := ⟨pid, ops.key d, ops.get_notion_properties d, icon, cover⟩
  (p, { r with
        pages := r.pages.map (fun q => if q.pageId == pid then p else q),
        updateCount := r.updateCount + 1 })

/-- Body of `retrieve_or_create_from_data` (notion.py lines 122-134), before
the `lru_cache` layer: resolve, then return / update / create according to
the outcome and the process-wide `update` flag `upd` (notion.py line 27). -/
def rocBody {D : Type} (upd : Bool) (ops : EntityOps D) (d : D)
    (iconUrl coverUrl : Option String) (r : Remote) :
    Except NotionError (NotionPage × Remote) :=
  let icon := mkExternal iconUrl
  let cover := mkExternal coverUrl
  match retrieve_from_data ops d r with
  | .error e => .error e
  | .ok (some page, r1) =>
    if upd then .ok (update_from_data ops page.pageId d icon cover r1)
    else .ok (page, r1)
  | .ok (none, r1) => .ok (create_from_data ops d icon cover r1)

/-- Per-run state: the remote database plus the
`functools.lru_cache(maxsize=None, typed=True)` memo keyed by
`(data, icon_url, cover_url)` (notion.py line 114). -/
structure RunState (D : Type) where
  remote : Remote
  cache : List ((D × Option String × Option String) × NotionPage)

/-- `retrieve_or_create_from_data` as seen by callers (notion.py lines
113-134): a cache hit returns the memoized page and performs nothing; a miss
runs the body and memoizes the result.  Exceptions are not memoized, matching
`lru_cache`. -/
def retrieve_or_create_from_data {D : Type} [DecidableEq D] (upd : Bool)
    (ops : EntityOps D) (d : D) (iconUrl coverUrl : Option String)
    (st : RunState D) : Except NotionError (NotionPage × RunState D) :=
  match st.cache.lookup (d, iconUrl, coverUrl) with
  | some p => .ok (p, st)
  | none =>
    match rocBody upd ops d iconUrl coverUrl st.remote with
    | .error e => .error e
    | .ok (p, r) => .ok (p, ⟨r, ((d, iconUrl, coverUrl), p) :: st.cache⟩)

/-- `n` successive calls of `retrieve_or_create_from_data` with the same
arguments within one run, threading the run state, collecting the returned
handles. -/
def rocCalls {D : Type} [DecidableEq D] (upd : Bool) (ops : EntityOps D)
    (d : D) (iconUrl coverUrl : Option String) :
    Nat → RunState D → Except NotionError (List NotionPage × RunState D)
  | 0, st => .ok ([], st)
  | n + 1, st =>
    match retrieve_or_create_from_data upd ops d iconUrl coverUrl st with
    | .error e => .error e
    | .ok (p, st1) =>
      match rocCalls upd ops d iconUrl coverUrl n st1 with
      | .error e => .error e
      | .ok (ps, st2) => .ok (p :: ps, st2)

/-! ## The recursive relation graph (igdb_notion.py `get_notion_properties`
relation fields, e.g. lines 2145-2250)

Serializing a record's relation fields calls
`X.retrieve_or_create_from_data(child)` for every referenced record, and the
`lru_cache` memo of a call is written only when that call returns.  The graph
model keeps just what that recursion touches: each record is a natural key
`k`, `refs k` lists the keys its relation fields reference, and a create
stores one page per key.  `fuel` bounds the recursion depth: `none` means the
recursion did not complete within `fuel` nested calls (for every fuel ‹none›
is a non-termination witness). -/

/-- State threaded through the recursive serialization: the `lru_cache` memo
(key ↦ page id), the remote pages (key ↦ page id), the log of create-writes,
and the id counter. -/
structure GraphState where
  cache : List (Nat × Nat)
  pages : List (Nat × Nat)
  createdKeys : List Nat
  nextId : Nat
deriving DecidableEq, Repr

/-- One step of the fused resolve/serialize recursion.  `.inl k` is a
`retrieve_or_create_from_data` call on the record with key `k`; `.inr ks`
serializes a relation field by resolving each referenced key in order.  The
cache entry for `k` is written only when the call on `k` returns (matching
`functools.lru_cache`), after the recursive serialization of `refs k`. -/
def rocGraphStep (refs : Nat → List Nat) :
    Nat → Nat ⊕ List Nat → GraphState → Option (List Nat × GraphState)
  | 0, _, _ => none
  | fuel + 1, .inl k, st =>
    match st.cache.lookup k with
    | some pid => some ([pid], st)
    | none =>
      match st.pages.lookup k with
      | some pid => some ([pid], { st with cache := (k, pid) :: st.cache })
      | none =>
        match rocGraphStep refs fuel (.inr (refs k)) st with
        | none => none
        | some (_, st2) =>
          some ([st2.nextId],
            { cache := (k, st2.nextId) :: st2.cache,
              pages := (k, st2.nextId) :: st2.pages,
              createdKeys := st2.createdKeys ++ [k],
              nextId := st2.nextId + 1 })
  | _ + 1, .inr [], st => some ([], st)
  | fuel + 1, .inr (c :: cs), st =>
    match rocGraphStep refs fuel (.inl c) st with
    | none => none
    | some (ids1, st1) =>
      match rocGraphStep refs fuel (.inr cs) st1 with
      | none => none
      | some (ids2, st2) => some (ids1 ++ ids2, st2)

/-- A `retrieve_or_create_from_data` call on the record with key `k`, with
recursion depth bounded by `fuel`. -/
def rocGraph (refs : Nat → List Nat) (fuel k : Nat) (st : GraphState) :
    Option (List Nat × GraphState) :=
  rocGraphStep refs fuel (.inl k) st

/-- The call on `k` terminates: some finite recursion depth suffices. -/
def graphTerminates (refs : Nat → List Nat) (k : Nat) (st : GraphState) : Prop :=
  ∃ fuel out, rocGraph refs fuel k st = some out

/-- A two-record cycle: record 0 references record 1 and record 1 references
record 0 back. -/
def cycRefs (k : Nat) : List Nat :=
  if k = 0 then [1] else if k = 1 then [0] else []

/-- A fresh run against an empty remote database. -/
def freshGraphState : GraphState := ⟨[], [], [], 0⟩

/-- A run where record 1 already exists remotely as page 77. -/
def seededGraphState : GraphState := ⟨[], [(1, 77)], [], 100⟩

/-! ## Notion request limits in the serializers (igdb_notion.py lines 33-35)

`MAX_RELATION_PAGES = 100` and `MAX_TEXT_LENGTH = 2000`.  Text contents are
modelled as `List Char` (Python `str` slicing is code-point based). -/

def MAX_RELATION_PAGES : Nat := 100

def MAX_TEXT_LENGTH : Nat := 2000

/-- The string fields of an igdb `Game` that feed title/rich_text
properties. -/
structure GameTextData where
  name : List Char
  slug : List Char
  storyline : List Char
  summary : List Char
  checksum : List Char

/-- The text contents stored by `Game.get_notion_properties` (igdb_notion.py
lines 2188, 2215, 2221, 2222, 2247): only `Storyline` is sliced with
`[:MAX_TEXT_LENGTH]`; `Summary` and the rest are stored as given. -/
def gameTextProps (d : GameTextData) : List (String × List Char) :=
  [("Name", d.name),
   ("Slug", d.slug),
   ("Storyline", d.storyline.take MAX_TEXT_LENGTH),
   ("Summary", d.summary),
   ("Checksum", d.checksum)]

/-- The text contents stored by `Company.get_notion_properties`
(igdb_notion.py lines 1075-1093): `Description` is sliced with
`[:MAX_TEXT_LENGTH]`, `Name`/`Slug`/`Checksum` are not. -/
def companyTextProps (name slug description checksum : List Char) :
    List (String × List Char) :=
  [("Description", description.take MAX_TEXT_LENGTH),
   ("Name", name),
   ("Slug", slug),
   ("Checksum", checksum)]

/-- The text contents stored by `PlatformVersion.get_notion_properties`
(igdb_notion.py lines 3613-3667): `Summary` is sliced with
`[:MAX_TEXT_LENGTH]`; `OS`, `Output`, `Slug` and the rest are not. -/
def platformVersionTextProps (name os output slug summary checksum : List Char) :
    List (String × List Char) :=
  [("Name", name),
   ("OS", os),
   ("Output", output),
   ("Slug", slug),
   ("Summary", summary.take MAX_TEXT_LENGTH),
   ("Checksum", checksum)]

/-- The collection-valued relation fields of an igdb `Game`, each child
record abstracted to its natural key. -/
structure GameRelationData where
  franchises : List Nat
  gameEngines : List Nat
  gameModes : List Nat
  genres : List Nat
  keywords : List Nat
  platforms : List Nat
  screenshots : List Nat
  themes : List Nat

/-- The relation id lists built by `Game.get_notion_properties`
(igdb_notion.py lines 2145-2229): each entry is
`[{"id": str(X.retrieve_or_create_from_data(child).id)} for child in ...]`,
with `resolve` abstracting the `retrieve_or_create_from_data(child).id`
handle resolution.  Only `Keywords` slices its collection with
`[:MAX_RELATION_PAGES]` (line 2179); `Screenshots` (lines 2209-2214) and all
other relation fields iterate the whole collection. -/
def gameRelationProps (resolve : Nat → Nat) (d : GameRelationData) :
    List (String × List Nat) :=
  [("Franchises", d.franchises.map resolve),
   ("Game Engines", d.gameEngines.map resolve),
   ("Game Modes", d.gameModes.map resolve),
   ("Genres", d.genres.map resolve),
   ("Keywords", (d.keywords.take MAX_RELATION_PAGES).map resolve),
   ("Platforms", d.platforms.map resolve),
   ("Screenshots", d.screenshots.map resolve),
   ("Themes", d.themes.map resolve)]

/-! ## Statistics lookups (hltb_notion.py lines 220-229, steamspy_notion.py
lines 93-99) and the composite game serializer (custom_notion.py lines
220-260) -/

/-- One HowLongToBeat search result with its similarity score (float in the
source, modelled as a rational). -/
structure HLTBEntry where
  entryId : Nat
  similarity : ℚ
deriving DecidableEq

/-- Python `max(results, key=lambda element: element.similarity)`: scan the
list keeping the current best, replacing it only on a strictly greater
score (so the first of equal maxima is kept). -/
def maxBySimilarity : HLTBEntry → List HLTBEntry → HLTBEntry
  | best, [] => best
  | best, x :: xs => maxBySimilarity (if best.similarity < x.similarity then x else best) xs

/-- `HLTBNotionPage.get_best_match` (hltb_notion.py lines 220-229): the
upstream search yields `None` or a list; `if not results: return None`,
otherwise the candidate with the maximum similarity is returned. -/
def get_best_match (results : Option (List HLTBEntry)) : Option HLTBEntry :=
  match results with
  | none => none
  | some [] => none
  | some (x :: xs) => some (maxBySimilarity x xs)

/-- `SteamSpySession.get_steam_spy_data` (steamspy_notion.py lines 93-99):
`SteamSpyGame.from_dict(response.json()) if response.ok else None`. -/
def get_steam_spy_data {β : Type} (ok : Bool) (payload : β) : Option β :=
  if ok then some payload else none

/-- The relation fields built by `CustomGamePage.get_notion_properties`
(custom_notion.py lines 222-260): `IGDB` always holds the one resolved game
handle; `How Long to Beat` and `Steam Spy` hold one resolved handle when the
optional lookup result is present and are the empty relation list
otherwise. -/
def customGameRelations (resolveIgdb : Nat → Nat) (resolveHltb : HLTBEntry → Nat)
    (resolveSteamspy : Nat → Nat) (igdb : Nat) (hltb : Option HLTBEntry)
    (steamspy : Option Nat) : List (String × List Nat) :=
  [("IGDB", [resolveIgdb igdb]),
   ("How Long to Beat", match hltb with | some h => [resolveHltb h] | none => []),
   ("Steam Spy", match steamspy with | some s => [resolveSteamspy s] | none => [])]

/-! ## URL normalization (igdb_notion.py lines 58-69)

`add_https_scheme` calls `urllib.parse.urlparse`, returns the input unchanged
when a scheme is present, and otherwise reassembles the parsed components
with scheme `"https"` via `urllib.parse.urlunparse`.  The collaborator
`urllib.parse` is embedded by its splitting rules: first colon-delimited
scheme (letter first, then letters/digits/`+`/`-`/`.`), network location
after a leading `//` up to the next `/`, `?` or `#`, fragment after the first
`#`, query after the first `?`, and path parameters after the first `;` of
the last path segment.  URLs are modelled as `List Char`; the stdlib's
removal of ASCII control characters and its bracketed-host validation are
outside the model (inputs are taken free of control characters and of
malformed IPv6 brackets). -/

/-- Characters allowed in a scheme after the initial letter. -/
def schemeChar (c : Char) : Bool := c.isAlphanum || c = '+' || c = '-' || c = '.'

/-- Characters ending the network location. -/
def netlocDelim (c : Char) : Bool := c = '/' || c = '?' || c = '#'

/-- Python `s.split(ch, 1)` collapsed with the absent case: the part before
the first `ch` and the part after it (empty when `ch` does not occur, which
the unparser treats the same as an empty trailing part). -/
def breakOn (ch : Char) : List Char → List Char × List Char
  | [] => ([], [])
  | c :: cs =>
    if c = ch then ([], cs)
    else
      let p := breakOn ch cs
      (c :: p.1, p.2)

/-- `scheme, rest`: the lowered scheme and the part after its colon when the
prefix before the first colon is a nonempty run of scheme characters starting
with a letter, and `([], url)` otherwise. -/
def splitScheme (u : List Char) : List Char × List Char :=
  let pre := u.takeWhile (· ≠ ':')
  if pre.length < u.length ∧ pre ≠ [] ∧ (pre.headD ' ').isAlpha ∧ pre.all schemeChar
  then (pre.map Char.toLower, u.drop (pre.length + 1))
  else ([], u)

/-- `netloc, rest` when the input starts with `//`, else `([], input)`. -/
def splitNetloc : List Char → List Char × List Char
  | c1 :: c2 :: rest =>
    if c1 = '/' ∧ c2 = '/' then
      (rest.takeWhile (fun c => !netlocDelim c), rest.dropWhile (fun c => !netlocDelim c))
    else ([], c1 :: c2 :: rest)
  | u => ([], u)

/-- The part of a path after its last `/` (the whole path when it has
none). -/
def lastSeg (p : List Char) : List Char := (p.reverse.takeWhile (· ≠ '/')).reverse

/-- The part of a path up to and including its last `/`. -/
def segPre (p : List Char) : List Char := (p.reverse.dropWhile (· ≠ '/')).reverse

/-- `_splitparams`: parameters are what follows the first `;` of the last
path segment. -/
def splitParams (p : List Char) : List Char × List Char :=
  let q := breakOn ';' (lastSeg p)
  (segPre p ++ q.1, q.2)

/-- The six components of `urllib.parse.urlparse`. -/
structure UrlParts where
  scheme : List Char
  netloc : List Char
  path : List Char
  params : List Char
  query : List Char
  fragment : List Char
deriving DecidableEq, Repr

/-- The schemes whose last path segment is searched for `;`-parameters
(`urllib.parse.uses_params`). -/
def uses_params : List (List Char) :=
  [[], "ftp".data, "hdl".data, "prospero".data, "http".data, "imap".data,
   "https".data, "shttp".data, "rtsp".data, "rtsps".data, "rtspu".data,
   "sip".data, "sips".data, "mms".data, "sftp".data, "tel".data]

/-- `urllib.parse.urlparse`: scheme, then netloc, then fragment, then query,
then path parameters (the latter only for a `uses_params` scheme). -/
def urlparse (u : List Char) : UrlParts :=
  let s := splitScheme u
  let n := splitNetloc s.2
  let f := breakOn '#' n.2
  let q := breakOn '?' f.1
  let pp := if s.1 ∈ uses_params ∧ ';' ∈ q.1 then splitParams q.1 else (q.1, [])
  ⟨s.1, n.1, pp.1, pp.2, q.2, f.2⟩

/-- A separator-prefixed optional part: empty stays empty, as in the
`if query:` / `if fragment:` / `if params:` guards of the unparser. -/
def optPart (ch : Char) (l : List Char) : List Char := if l = [] then [] else ch :: l

/-- The schemes for which the unparser materializes a `//` section even when
the network location is empty (`urllib.parse.uses_netloc`). -/
def uses_netloc : List (List Char) :=
  [[], "ftp".data, "http".data, "gopher".data, "nntp".data, "telnet".data,
   "imap".data, "wais".data, "file".data, "mms".data, "https".data,
   "shttp".data, "snews".data, "prospero".data, "rtsp".data, "rtsps".data,
   "rtspu".data, "rsync".data, "svn".data, "svn+ssh".data, "sftp".data,
   "nfs".data, "git".data, "git+ssh".data, "ws".data, "wss".data]

/-- `urllib.parse.urlunparse`: rejoin parameters to the path, re-add `//`
whenever there is a netloc — or the scheme is a `uses_netloc` scheme and the
path does not already start with `//` — prefix the scheme, append query and
fragment. -/
def urlunparse (c : UrlParts) : List Char :=
  let url0 := c.path ++ optPart ';' c.params
  let url1 :=
    if c.netloc ≠ [] ∨ (c.scheme ≠ [] ∧ c.scheme ∈ uses_netloc ∧ url0.take 2 ≠ ['/', '/']) then
      '/' :: '/' :: (c.netloc ++ (if url0 ≠ [] ∧ url0.take 1 ≠ ['/'] then '/' :: url0 else url0))
    else url0
  (if c.scheme = [] then url1 else c.scheme ++ ':' :: url1)
    ++ optPart '?' c.query ++ optPart '#' c.fragment

/-- The characters of the scheme the function adds. -/
def httpsChars : List Char := ['h', 't', 't', 'p', 's']

/-- `add_https_scheme` (igdb_notion.py lines 58-69): return the input when
its parse has a scheme, otherwise unparse `("https",) + parsed_url[1:]`. -/
def add_https_scheme (u : List Char) : List Char :=
  let p := urlparse u
  if p.scheme ≠ [] then u
  else urlunparse { p with scheme := httpsChars }

/-! ## Theorems -/

theorem retryRun_always_error {α : Type} (action : Nat → Except NotionError α)
    (errs : Nat → NotionError) (ha : ∀ i, action i = .error (errs i))
    (ht : ∀ i, isRetryableError (errs i) = true) :
    ∀ k a, retryRun action a k = (.error (errs (a + k)), a + k) := by
  intro k
  induction k with
  | zero => intro a; simp [retryRun, ha a]
  | succ n ih =>
    intro a
    rw [show a + (n + 1) = (a + 1) + n by omega]
    simp only [retryRun, ha a, ht a, if_true]
    exact ih (a + 1)

/-- C6: a wrapped remote call failing with a transient error on every attempt
is tried exactly 10 times, each retry preceded by a randomized exponential
wait of at most 960 time units, and the 10th failure is re-raised
unmodified. -/
theorem retry_exhaustion_spec {α : Type} (action : Nat → Except NotionError α)
    (errs : Nat → NotionError) (r : Nat → ℚ)
    (ha : ∀ i, action i = .error (errs i))
    (ht : ∀ i, isRetryableError (errs i) = true)
    (hr : ∀ i, 0 ≤ r i ∧ r i ≤ 1) :
    tenacityCall action = (.error (errs 10), 10) ∧
      ∀ i, 1 ≤ i → i ≤ 9 → 0 ≤ drawnWait r i ∧ drawnWait r i ≤ 960 := by
  constructor
  · have h := retryRun_always_error action errs ha ht 9 1
    simpa [tenacityCall] using h
  · intro i _ _
    have hb0 : (0 : ℚ) ≤ waitBound i := by
      apply le_min
      · positivity
      · norm_num
    constructor
    · exact mul_nonneg (hr i).1 hb0
    · calc r i * waitBound i ≤ 1 * waitBound i :=
            mul_le_mul_of_nonneg_right (hr i).2 hb0
        _ = waitBound i := one_mul _
        _ ≤ 960 := min_le_right _ _

/-- Witness for C6 at the call that always raises `HTTPResponseError`. -/
theorem retry_exhaustion_spec_witness :
    tenacityCall (fun _ => (.error .httpResponse : Except NotionError Nat)) =
      (.error .httpResponse, 10) ∧
    0 ≤ drawnWait (fun _ => 1 / 2) 3 ∧ drawnWait (fun _ => 1 / 2) 3 ≤ 960 := by
  have h := retry_exhaustion_spec (fun _ => (.error .httpResponse : Except NotionError Nat))
    (fun _ => .httpResponse) (fun _ => 1 / 2) (fun _ => rfl) (fun _ => rfl)
    (fun _ => by norm_num)
  exact ⟨h.1, (h.2 3 (by norm_num) (by norm_num)).1, (h.2 3 (by norm_num) (by norm_num)).2⟩

/-- C7: a wrapped remote call raising a non-transient exception (anything but
`HTTPResponseError` and `RequestTimeoutError`, e.g. the missing-natural-key
`ValueError`) propagates on the first attempt with no retries. -/
theorem nonretryable_first_raise_spec {α : Type} (action : Nat → Except NotionError α)
    (e : NotionError) (h1 : action 1 = .error e)
    (hh : e ≠ .httpResponse) (ht : e ≠ .requestTimeout) :
    tenacityCall action = (.error e, 1) := by
  have hre : isRetryableError e = false := by
    cases e
    · exact absurd rfl hh
    · exact absurd rfl ht
    · rfl
    · rfl
  simp [tenacityCall, retryRun, h1, hre]

/-- Witness for C7 at the missing-natural-key error. -/
theorem nonretryable_first_raise_spec_witness :
    tenacityCall (fun _ => (.error .missingKey : Except NotionError Nat)) =
      (.error .missingKey, 1) :=
  nonretryable_first_raise_spec (fun _ => (.error .missingKey : Except NotionError Nat))
    .missingKey rfl (by decide) (by decide)

theorem roc_fixpoint {D : Type} [DecidableEq D] (upd : Bool) (ops : EntityOps D)
    (d : D) (iconUrl coverUrl : Option String) (st st1 : RunState D) (p : NotionPage)
    (h : retrieve_or_create_from_data upd ops d iconUrl coverUrl st = .ok (p, st1)) :
    retrieve_or_create_from_data upd ops d iconUrl coverUrl st1 = .ok (p, st1) := by
  unfold retrieve_or_create_from_data at h ⊢
  cases hc : st.cache.lookup (d, iconUrl, coverUrl) with
  | some q =>
    rw [hc] at h
    simp only [Except.ok.injEq, Prod.mk.injEq] at h
    obtain ⟨rfl, rfl⟩ := h
    rw [hc]
  | none =>
    rw [hc] at h
    cases hb : rocBody upd ops d iconUrl coverUrl st.remote with
    | error e => rw [hb] at h; exact absurd h (by simp)
    | ok pr =>
      obtain ⟨p0, r0⟩ := pr
      rw [hb] at h
      simp only [Except.ok.injEq, Prod.mk.injEq] at h
      obtain ⟨rfl, rfl⟩ := h
      simp [List.lookup]

theorem rocCalls_fixpoint {D : Type} [DecidableEq D] (upd : Bool) (ops : EntityOps D)
    (d : D) (iconUrl coverUrl : Option String) (st1 : RunState D) (p : NotionPage)
    (hfix : retrieve_or_create_from_data upd ops d iconUrl coverUrl st1 = .ok (p, st1)) :
    ∀ n, rocCalls upd ops d iconUrl coverUrl n st1 = .ok (List.replicate n p, st1) := by
  intro n
  induction n with
  | zero => simp [rocCalls]
  | succ m ih => simp [rocCalls, hfix, ih, List.replicate]

theorem rocBody_counts {D : Type} (upd : Bool) (ops : EntityOps D) (d : D)
    (iconUrl coverUrl : Option String) (r r1 : Remote) (p : NotionPage)
    (h : rocBody upd ops d iconUrl coverUrl r = .ok (p, r1)) :
    r1.createCount ≤ r.createCount + 1 ∧ r1.queryCount = r.queryCount + 1 ∧
      r1.updateCount ≤ r.updateCount + 1 := by
  unfold rocBody retrieve_from_data at h
  by_cases hk : ops.hasKey d
  · rw [if_pos hk] at h
    cases hh : (r.pages.filter (fun q => q.natKey == ops.key d)).head? with
    | none =>
      rw [hh] at h
      simp only [Except.ok.injEq, Prod.mk.injEq, create_from_data] at h
      obtain ⟨-, rfl⟩ := h
      simp
    | some page =>
      rw [hh] at h
      cases upd with
      | false =>
        simp only [Bool.false_eq_true, if_false, Except.ok.injEq, Prod.mk.injEq] at h
        obtain ⟨-, rfl⟩ := h
        simp
      | true =>
        simp only [if_true, Except.ok.injEq, Prod.mk.injEq, update_from_data] at h
        obtain ⟨-, rfl⟩ := h
        simp
  · rw [if_neg hk] at h
    exact absurd h (by simp)

/-- C1: within one run, `n` calls of `retrieve_or_create_from_data` with the
same data and hint arguments perform the resolve/create logic once — at most
one create-write and one query — every later call is a cache hit leaving the
whole run state untouched, and all `n` calls return the identical handle. -/
theorem at_most_once_create_spec {D : Type} [DecidableEq D] (upd : Bool)
    (ops : EntityOps D) (d : D) (iconUrl coverUrl : Option String) (n : Nat)
    (st0 stN : RunState D) (ps : List NotionPage) (hn : 0 < n)
    (h : rocCalls upd ops d iconUrl coverUrl n st0 = .ok (ps, stN)) :
    ∃ p st1, retrieve_or_create_from_data upd ops d iconUrl coverUrl st0 = .ok (p, st1) ∧
      ps = List.replicate n p ∧ stN = st1 ∧
      st1.remote.createCount ≤ st0.remote.createCount + 1 ∧
      st1.remote.queryCount ≤ st0.remote.queryCount + 1 := by
  obtain ⟨m, rfl⟩ : ∃ m, n = m + 1 := ⟨n - 1, by omega⟩
  rw [rocCalls] at h
  cases h1 : retrieve_or_create_from_data upd ops d iconUrl coverUrl st0 with
  | error e => rw [h1] at h; exact absurd h (by simp)
  | ok pr =>
    obtain ⟨p, st1⟩ := pr
    rw [h1] at h
    dsimp only at h
    have hfix := roc_fixpoint upd ops d iconUrl coverUrl st0 st1 p h1
    rw [rocCalls_fixpoint upd ops d iconUrl coverUrl st1 p hfix m] at h
    dsimp only at h
    simp only [Except.ok.injEq, Prod.mk.injEq] at h
    obtain ⟨h2, h3⟩ := h
    subst h3
    rw [← h2]
    have hcount : st1.remote.createCount ≤ st0.remote.createCount + 1 ∧
        st1.remote.queryCount ≤ st0.remote.queryCount + 1 := by
      unfold retrieve_or_create_from_data at h1
      cases hc : st0.cache.lookup (d, iconUrl, coverUrl) with
      | some q =>
        rw [hc] at h1
        simp only [Except.ok.injEq, Prod.mk.injEq] at h1
        obtain ⟨-, rfl⟩ := h1
        omega
      | none =>
        rw [hc] at h1
        cases hb : rocBody upd ops d iconUrl coverUrl st0.remote with
        | error e => rw [hb] at h1; exact absurd h1 (by simp)
        | ok pr0 =>
          obtain ⟨p0, r0⟩ := pr0
          rw [hb] at h1
          simp only [Except.ok.injEq, Prod.mk.injEq] at h1
          obtain ⟨-, rfl⟩ := h1
          obtain ⟨hc1, hc2, hc3⟩ := rocBody_counts upd ops d iconUrl coverUrl st0.remote r0 p0 hb
          constructor
          · dsimp only
            exact hc1
          · dsimp only
            omega
    exact ⟨p, st1, rfl, by simp [List.replicate], rfl, hcount.1, hcount.2⟩

/-- Witness for C1: three calls on data 7 against an empty run state create
one page and return it three times. -/
theorem at_most_once_create_spec_witness :
    ∃ p st1,
      retrieve_or_create_from_data false ⟨fun _ => true, id, fun _ => []⟩ 7 none none
        ⟨⟨[], 0, 0, 0, 0⟩, []⟩ = .ok (p, st1) ∧
      List.replicate 3 (⟨0, 7, [], none, none⟩ : NotionPage) = List.replicate 3 p ∧
      (⟨⟨[⟨0, 7, [], none, none⟩], 1, 1, 1, 0⟩,
        [((7, none, none), ⟨0, 7, [], none, none⟩)]⟩ : RunState Nat) = st1 ∧
      st1.remote.createCount ≤ 0 + 1 ∧ st1.remote.queryCount ≤ 0 + 1 :=
  at_most_once_create_spec false ⟨fun _ => true, id, fun _ => []⟩ 7 none none 3
    ⟨⟨[], 0, 0, 0, 0⟩, []⟩
    ⟨⟨[⟨0, 7, [], none, none⟩], 1, 1, 1, 0⟩, [((7, none, none), ⟨0, 7, [], none, none⟩)]⟩
    (List.replicate 3 ⟨0, 7, [], none, none⟩) (by omega) rfl

/-- C3: on a cache-miss call whose natural key resolves to an existing remote
page, the update flag `false` yields no create-write and no update-write and
returns that page unmodified, while the flag `true` yields exactly one
update-write that overwrites the page's fields with the freshly serialized
properties. -/
theorem update_toggle_spec {D : Type} [DecidableEq D] (ops : EntityOps D) (d : D)
    (iconUrl coverUrl : Option String) (st : RunState D) (page : NotionPage)
    (hcache : st.cache.lookup (d, iconUrl, coverUrl) = none)
    (hkey : ops.hasKey d = true)
    (hfound : (st.remote.pages.filter (fun p => p.natKey == ops.key d)).head? = some page) :
    (∃ st1 : RunState D,
      retrieve_or_create_from_data false ops d iconUrl coverUrl st = .ok (page, st1) ∧
      st1.remote.pages = st.remote.pages ∧
      st1.remote.createCount = st.remote.createCount ∧
      st1.remote.updateCount = st.remote.updateCount) ∧
    (∃ p1 st2 : _,
      retrieve_or_create_from_data true ops d iconUrl coverUrl st = .ok (p1, st2) ∧
      st2.remote.updateCount = st.remote.updateCount + 1 ∧
      st2.remote.createCount = st.remote.createCount ∧
      p1.pageId = page.pageId ∧ p1.props = ops.get_notion_properties d ∧
      st2.remote.pages = st.remote.pages.map
        (fun q => if q.pageId == page.pageId then
          ⟨page.pageId, ops.key d, ops.get_notion_properties d,
           mkExternal iconUrl, mkExternal coverUrl⟩ else q)) := by
  constructor
  · refine ⟨⟨{ st.remote with queryCount := st.remote.queryCount + 1 },
      ((d, iconUrl, coverUrl), page) :: st.cache⟩, ?_, rfl, rfl, rfl⟩
    unfold retrieve_or_create_from_data rocBody retrieve_from_data
    rw [hcache]
    dsimp only
    rw [if_pos hkey, hfound]
    rfl
  · refine ⟨⟨page.pageId, ops.key d, ops.get_notion_properties d,
      mkExternal iconUrl, mkExternal coverUrl⟩,
      ⟨{ st.remote with
          pages := st.remote.pages.map (fun q => if q.pageId == page.pageId then
            ⟨page.pageId, ops.key d, ops.get_notion_properties d,
             mkExternal iconUrl, mkExternal coverUrl⟩ else q),
          queryCount := st.remote.queryCount + 1,
          updateCount := st.remote.updateCount + 1 },
        ((d, iconUrl, coverUrl),
         (⟨page.pageId, ops.key d, ops.get_notion_properties d,
           mkExternal iconUrl, mkExternal coverUrl⟩ : NotionPage)) :: st.cache⟩,
      ?_, rfl, rfl, rfl, rfl, rfl⟩
    unfold retrieve_or_create_from_data rocBody retrieve_from_data update_from_data
    rw [hcache]
    dsimp only
    rw [if_pos hkey, hfound]
    rfl

/-- Witness for C3 at a one-page remote store. -/
theorem update_toggle_spec_witness :
    (∃ st1 : RunState Nat,
      retrieve_or_create_from_data false ⟨fun _ => true, id, fun _ => []⟩ 5 none none
        ⟨⟨[⟨9, 5, [("old", "x")], none, none⟩], 10, 0, 0, 0⟩, []⟩ =
        .ok (⟨9, 5, [("old", "x")], none, none⟩, st1) ∧
      st1.remote.pages = [⟨9, 5, [("old", "x")], none, none⟩] ∧
      st1.remote.createCount = 0 ∧ st1.remote.updateCount = 0) ∧
    (∃ p1 st2 : _,
      retrieve_or_create_from_data true ⟨fun _ => true, id, fun _ => []⟩ 5 none none
        ⟨⟨[⟨9, 5, [("old", "x")], none, none⟩], 10, 0, 0, 0⟩, []⟩ = .ok (p1, st2) ∧
      st2.remote.updateCount = 0 + 1 ∧ st2.remote.createCount = 0 ∧
      p1.pageId = (⟨9, 5, [("old", "x")], none, none⟩ : NotionPage).pageId ∧
      p1.props = [] ∧
      st2.remote.pages = [⟨9, 5, [("old", "x")], none, none⟩].map
        (fun q => if q.pageId == (⟨9, 5, [("old", "x")], none, none⟩ : NotionPage).pageId
          then ⟨9, 5, [], none, none⟩ else q)) :=
  update_toggle_spec ⟨fun _ => true, id, fun _ => []⟩ 5 none none
    ⟨⟨[⟨9, 5, [("old", "x")], none, none⟩], 10, 0, 0, 0⟩, []⟩
    ⟨9, 5, [("old", "x")], none, none⟩ rfl rfl rfl

theorem filter_head?_eq_find? {α : Type} (p : α → Bool) (l : List α) :
    (l.filter p).head? = l.find? p := by
  induction l with
  | nil => rfl
  | cons a t ih =>
    by_cases h : p a <;> simp [List.filter_cons, List.find?_cons, h, ih]

theorem find?_first_match {α : Type} (p : α → Bool) :
    ∀ (l : List α) (x : α), l.find? p = some x →
      p x = true ∧ ∃ l1 l2, l = l1 ++ x :: l2 ∧ ∀ y ∈ l1, p y = false := by
  intro l
  induction l with
  | nil => intro x h; simp at h
  | cons a t ih =>
    intro x h
    by_cases ha : p a
    · rw [List.find?_cons, ha] at h
      dsimp only at h
      obtain rfl : a = x := by simpa using h
      exact ⟨ha, [], t, rfl, by simp⟩
    · have ha' : p a = false := by simpa using ha
      rw [List.find?_cons, ha'] at h
      dsimp only at h
      obtain ⟨hp, l1, l2, rfl, hall⟩ := ih x h
      refine ⟨hp, a :: l1, l2, rfl, ?_⟩
      intro y hy
      rcases List.mem_cons.mp hy with rfl | hy2
      · simpa using ha
      · exact hall y hy2

/-- C8: the resolver raises the missing-key error exactly when the record
lacks its natural-key attribute; otherwise it performs exactly one
equality-filter query round trip (no pagination), returning `none` when no
remote page matches the key and the first matching page otherwise. -/
theorem resolver_spec {D : Type} (ops : EntityOps D) (d : D) (r : Remote) :
    (retrieve_from_data ops d r = .error .missingKey ↔ ops.hasKey d = false) ∧
    (ops.hasKey d = true →
      retrieve_from_data ops d r =
        .ok (r.pages.find? (fun p => p.natKey == ops.key d),
             { r with queryCount := r.queryCount + 1 }) ∧
      (r.pages.find? (fun p => p.natKey == ops.key d) = none ↔
        ∀ p ∈ r.pages, p.natKey ≠ ops.key d) ∧
      (∀ p, r.pages.find? (fun q => q.natKey == ops.key d) = some p →
        p.natKey = ops.key d ∧
        ∃ l1 l2, r.pages = l1 ++ p :: l2 ∧ ∀ q ∈ l1, q.natKey ≠ ops.key d)) := by
  refine ⟨?_, fun hk => ⟨?_, ?_, ?_⟩⟩
  · unfold retrieve_from_data
    by_cases hk : ops.hasKey d <;> simp [hk]
  · unfold retrieve_from_data
    rw [if_pos hk, filter_head?_eq_find?]
  · rw [List.find?_eq_none]
    simp
  · intro p hp
    obtain ⟨hpeq, l1, l2, heq, hall⟩ := find?_first_match _ _ _ hp
    refine ⟨by simpa using hpeq, l1, l2, heq, fun q hq => by simpa using hall q hq⟩

/-- Witness for C8 at a one-page remote store whose page matches key 5. -/
theorem resolver_spec_witness :
    (retrieve_from_data (⟨fun _ => true, id, fun _ => []⟩ : EntityOps Nat) 5
        ⟨[⟨1, 5, [], none, none⟩], 2, 0, 0, 0⟩ =
      .ok (some ⟨1, 5, [], none, none⟩, ⟨[⟨1, 5, [], none, none⟩], 2, 1, 0, 0⟩)) ∧
    (⟨fun _ => true, id, fun _ => []⟩ : EntityOps Nat).hasKey 5 = true := by
  have h := resolver_spec (⟨fun _ => true, id, fun _ => []⟩ : EntityOps Nat) 5
    ⟨[⟨1, 5, [], none, none⟩], 2, 0, 0, 0⟩
  exact ⟨((h.2 rfl).1).trans (by rfl), rfl⟩

theorem rocGraphStep_cyc_none :
    ∀ fuel (st : GraphState), st.cache.lookup 0 = none → st.cache.lookup 1 = none →
      st.pages = [] →
      rocGraphStep cycRefs fuel (.inl 0) st = none ∧
      rocGraphStep cycRefs fuel (.inl 1) st = none ∧
      rocGraphStep cycRefs fuel (.inr [0]) st = none ∧
      rocGraphStep cycRefs fuel (.inr [1]) st = none := by
  intro fuel
  induction fuel with
  | zero => intro st h0 h1 hp; exact ⟨rfl, rfl, rfl, rfl⟩
  | succ n ih =>
    intro st h0 h1 hp
    obtain ⟨g0, g1, gl0, gl1⟩ := ih st h0 h1 hp
    refine ⟨?_, ?_, ?_, ?_⟩
    · show rocGraphStep cycRefs (n + 1) (.inl 0) st = none
      rw [rocGraphStep, h0, hp]
      dsimp only [List.lookup]
      rw [show cycRefs 0 = [1] from rfl, gl1]
    · show rocGraphStep cycRefs (n + 1) (.inl 1) st = none
      rw [rocGraphStep, h1, hp]
      dsimp only [List.lookup]
      rw [show cycRefs 1 = [0] from rfl, gl0]
    · show rocGraphStep cycRefs (n + 1) (.inr [0]) st = none
      rw [rocGraphStep, g0]
    · show rocGraphStep cycRefs (n + 1) (.inr [1]) st = none
      rw [rocGraphStep, g1]

/-- C2 counterexample: on the two-record cycle (0 references 1, 1 references
0) against an empty remote store, `retrieve_or_create_from_data` does not
terminate at any recursion depth — the cache entry is written only when a
call returns, so it is never present when the cycle loops back. -/
theorem cycle_termination_counterexample :
    ¬ graphTerminates cycRefs 0 freshGraphState := by
  rintro ⟨fuel, out, h⟩
  have hnone := (rocGraphStep_cyc_none fuel freshGraphState rfl rfl rfl).1
  rw [rocGraph] at h
  rw [hnone] at h
  exact Option.noConfusion h

/-- C2 amended: the Resolution Cache is populated only when a call returns,
never before its property serialization, so a cyclic record graph none of
whose members exists remotely recurses without bound; when the cycle is
instead entered through a record that already resolves remotely (record 1 as
page 77), the run terminates with exactly one handle per record and a single
create-write, for record 0 only. -/
theorem cycle_cache_late_population_spec :
    (∀ fuel, rocGraph cycRefs fuel 0 freshGraphState = none) ∧
    rocGraph cycRefs 5 0 seededGraphState =
      some ([100], ⟨[(0, 100), (1, 77)], [(0, 100), (1, 77)], [0], 101⟩) := by
  constructor
  · intro fuel
    exact (rocGraphStep_cyc_none fuel freshGraphState rfl rfl rfl).1
  · rfl

/-- Witness for C2 amended at recursion depth 7. -/
theorem cycle_cache_late_population_spec_witness :
    rocGraph cycRefs 7 0 freshGraphState = none ∧
    rocGraph cycRefs 5 0 seededGraphState =
      some ([100], ⟨[(0, 100), (1, 77)], [(0, 100), (1, 77)], [0], 101⟩) := by
  have h := cycle_cache_late_population_spec
  exact ⟨h.1 7, h.2⟩

/-- C4 counterexample: the `Summary` text field of a Game (igdb_notion.py
line 2222) stores a 2001-character value unchanged — it is not truncated to
its first 2000 characters. -/
theorem text_truncation_counterexample :
    (gameTextProps ⟨[], [], [], List.replicate 2001 'a', []⟩).lookup "Summary" =
      some (List.replicate 2001 'a') ∧
    2000 < (List.replicate 2001 'a').length ∧
    (gameTextProps ⟨[], [], [], List.replicate 2001 'a', []⟩).lookup "Summary" ≠
      some ((List.replicate 2001 'a').take 2000) := by
  have h1 : (gameTextProps ⟨[], [], [], List.replicate 2001 'a', []⟩).lookup "Summary" =
      some (List.replicate 2001 'a') := rfl
  refine ⟨h1, by rw [List.length_replicate]; omega, ?_⟩
  intro h
  have h2 := Option.some.inj (h1.symm.trans h)
  have h3 := congrArg List.length h2
  rw [List.length_take, List.length_replicate] at h3
  exact absurd h3 (by decide)

/-- C4 amended: only three text fields are length-limited — a Game's
`Storyline`, a Company's `Description` and a PlatformVersion's `Summary` are
truncated to their first `MAX_TEXT_LENGTH` characters (exactly 2000 when
longer, unchanged when within the limit) — while every other text field,
including a Game's `Summary`, is stored unchanged at any length. -/
theorem text_truncation_spec (d : GameTextData)
    (nm sl de ck os op su : List Char) :
    ((gameTextProps d).lookup "Storyline" = some (d.storyline.take MAX_TEXT_LENGTH) ∧
     (MAX_TEXT_LENGTH ≤ d.storyline.length →
       (d.storyline.take MAX_TEXT_LENGTH).length = MAX_TEXT_LENGTH ∧
       d.storyline.take MAX_TEXT_LENGTH = d.storyline.take 2000) ∧
     (d.storyline.length ≤ MAX_TEXT_LENGTH →
       d.storyline.take MAX_TEXT_LENGTH = d.storyline)) ∧
    (gameTextProps d).lookup "Summary" = some d.summary ∧
    (gameTextProps d).lookup "Name" = some d.name ∧
    (gameTextProps d).lookup "Slug" = some d.slug ∧
    (companyTextProps nm sl de ck).lookup "Description" =
      some (de.take MAX_TEXT_LENGTH) ∧
    (companyTextProps nm sl de ck).lookup "Slug" = some sl ∧
    (platformVersionTextProps nm os op sl su ck).lookup "Summary" =
      some (su.take MAX_TEXT_LENGTH) ∧
    (platformVersionTextProps nm os op sl su ck).lookup "OS" = some os := by
  refine ⟨⟨rfl, ?_, ?_⟩, rfl, rfl, rfl, rfl, rfl, rfl, rfl⟩
  · intro hlen
    constructor
    · rw [List.length_take]
      omega
    · rfl
  · intro hlen
    exact List.take_of_length_le hlen

/-- Witness for C4 amended, with a 2500-character storyline. -/
theorem text_truncation_spec_witness :
    ((gameTextProps ⟨[], [], List.replicate 2500 'b', [], []⟩).lookup "Storyline" =
       some ((List.replicate 2500 'b').take MAX_TEXT_LENGTH)) ∧
    ((List.replicate 2500 'b').take MAX_TEXT_LENGTH).length = MAX_TEXT_LENGTH ∧
    (gameTextProps ⟨[], [], List.replicate 2500 'b', [], []⟩).lookup "Summary" = some [] := by
  have h := text_truncation_spec ⟨[], [], List.replicate 2500 'b', [], []⟩ [] [] [] [] [] [] []
  refine ⟨h.1.1, ?_, h.2.1⟩
  exact (h.1.2.1 (by rw [List.length_replicate]; norm_num [MAX_TEXT_LENGTH])).1

/-- C5 counterexample: the `Screenshots` relation of a Game (igdb_notion.py
lines 2209-2214) with 101 referenced records stores all 101 relation
identifiers — it is not capped at the first 100. -/
theorem relation_cap_counterexample :
    (gameRelationProps id ⟨[], [], [], [], [], [], List.range 101, []⟩).lookup
        "Screenshots" = some ((List.range 101).map id) ∧
    100 < ((List.range 101).map id).length := by
  refine ⟨rfl, ?_⟩
  simp

/-- C5 amended: only the `Keywords` relation field slices its collection with
`[:MAX_RELATION_PAGES]` — storing exactly the first 100 identifiers when the
collection is larger and never more than 100 — while every other relation
field, such as `Screenshots`, stores one identifier per referenced record
with no cap and no batching. -/
theorem relation_cap_spec (resolve : Nat → Nat) (d : GameRelationData) :
    ((gameRelationProps resolve d).lookup "Keywords" =
       some ((d.keywords.take MAX_RELATION_PAGES).map resolve)) ∧
    ((d.keywords.take MAX_RELATION_PAGES).map resolve).length ≤ MAX_RELATION_PAGES ∧
    (MAX_RELATION_PAGES ≤ d.keywords.length →
      ((d.keywords.take MAX_RELATION_PAGES).map resolve).length = MAX_RELATION_PAGES) ∧
    ((gameRelationProps resolve d).lookup "Screenshots" =
       some (d.screenshots.map resolve)) ∧
    (d.screenshots.map resolve).length = d.screenshots.length ∧
    ((gameRelationProps resolve d).lookup "Franchises" =
       some (d.franchises.map resolve)) := by
  refine ⟨rfl, ?_, ?_, rfl, by simp, rfl⟩
  · rw [List.length_map, List.length_take]
    omega
  · intro hlen
    rw [List.length_map, List.length_take]
    omega

/-- Witness for C5 amended, with 150 keywords and 3 screenshots. -/
theorem relation_cap_spec_witness :
    ((gameRelationProps id ⟨[], [], [], [], List.range 150, [], List.range 3, []⟩).lookup
        "Keywords" = some (((List.range 150).take MAX_RELATION_PAGES).map id)) ∧
    (((List.range 150).take MAX_RELATION_PAGES).map id).length = MAX_RELATION_PAGES ∧
    ((gameRelationProps id ⟨[], [], [], [], List.range 150, [], List.range 3, []⟩).lookup
        "Screenshots" = some ((List.range 3).map id)) := by
  have h := relation_cap_spec id ⟨[], [], [], [], List.range 150, [], List.range 3, []⟩
  exact ⟨h.1, h.2.2.1 (by simp [MAX_RELATION_PAGES]), h.2.2.2.1⟩

theorem maxBySimilarity_mem (best : HLTBEntry) (xs : List HLTBEntry) :
    maxBySimilarity best xs = best ∨ maxBySimilarity best xs ∈ xs := by
  induction xs generalizing best with
  | nil => left; rfl
  | cons x t ih =>
    rw [maxBySimilarity]
    rcases ih (if best.similarity < x.similarity then x else best) with h | h
    · rw [h]
      by_cases hc : best.similarity < x.similarity
      · right
        rw [if_pos hc]
        exact List.mem_cons_self x t
      · left
        rw [if_neg hc]
    · right
      exact List.mem_cons_of_mem x h

theorem maxBySimilarity_ge (best : HLTBEntry) (xs : List HLTBEntry) :
    best.similarity ≤ (maxBySimilarity best xs).similarity ∧
      ∀ y ∈ xs, y.similarity ≤ (maxBySimilarity best xs).similarity := by
  induction xs generalizing best with
  | nil => exact ⟨le_refl _, by simp⟩
  | cons x t ih =>
    rw [maxBySimilarity]
    obtain ⟨h1, h2⟩ := ih (if best.similarity < x.similarity then x else best)
    have hb : best.similarity ≤
        (if best.similarity < x.similarity then x else best).similarity := by
      by_cases hc : best.similarity < x.similarity
      · rw [if_pos hc]; exact le_of_lt hc
      · rw [if_neg hc]
    have hx : x.similarity ≤
        (if best.similarity < x.similarity then x else best).similarity := by
      by_cases hc : best.similarity < x.similarity
      · rw [if_pos hc]
      · rw [if_neg hc]; exact le_of_not_lt hc
    refine ⟨le_trans hb h1, ?_⟩
    intro y hy
    rcases List.mem_cons.mp hy with rfl | hy2
    · exact le_trans hx h1
    · exact h2 y hy2

/-- C9: a game-length lookup with no upstream result (a `None` or empty
search response) returns `none`, as does an ownership lookup with a non-ok
response; the composite game serializer writes an empty relation list for an
absent statistics handle; and a nonempty fuzzy search returns the single
candidate with the maximum similarity score. -/
theorem stats_lookup_spec (x : HLTBEntry) (xs : List HLTBEntry) (payload : Nat)
    (resolveIgdb : Nat → Nat) (resolveHltb : HLTBEntry → Nat)
    (resolveSteamspy : Nat → Nat) (igdb : Nat) :
    get_best_match none = none ∧
    get_best_match (some []) = none ∧
    get_steam_spy_data false payload = none ∧
    (∃ m, get_best_match (some (x :: xs)) = some m ∧ m ∈ x :: xs ∧
      ∀ y ∈ x :: xs, y.similarity ≤ m.similarity) ∧
    (customGameRelations resolveIgdb resolveHltb resolveSteamspy igdb none none).lookup
      "How Long to Beat" = some [] ∧
    (customGameRelations resolveIgdb resolveHltb resolveSteamspy igdb none none).lookup
      "Steam Spy" = some [] := by
  refine ⟨rfl, rfl, rfl, ?_, rfl, rfl⟩
  refine ⟨maxBySimilarity x xs, rfl, ?_, ?_⟩
  · rcases maxBySimilarity_mem x xs with h | h
    · rw [h]; exact List.mem_cons_self x xs
    · exact List.mem_cons_of_mem x h
  · intro y hy
    obtain ⟨h1, h2⟩ := maxBySimilarity_ge x xs
    rcases List.mem_cons.mp hy with rfl | hy2
    · exact h1
    · exact h2 y hy2

/-- Witness for C9 at a two-candidate search result. -/
theorem stats_lookup_spec_witness :
    get_best_match none = none ∧
    (∃ m, get_best_match (some [⟨1, 1 / 2⟩, ⟨2, 3 / 4⟩]) = some m ∧
      m ∈ [(⟨1, 1 / 2⟩ : HLTBEntry), ⟨2, 3 / 4⟩] ∧
      ∀ y ∈ [(⟨1, 1 / 2⟩ : HLTBEntry), ⟨2, 3 / 4⟩], y.similarity ≤ m.similarity) ∧
    (customGameRelations id (fun _ => 0) id 4 none none).lookup "How Long to Beat" =
      some [] := by
  have h := stats_lookup_spec ⟨1, 1 / 2⟩ [⟨2, 3 / 4⟩] 0 id (fun _ => 0) id 4
  exact ⟨h.1, h.2.2.2.1, h.2.2.2.2.1⟩

theorem takeWhile_append_sat {p : Char → Bool} :
    ∀ {a : List Char} (b : List Char), (∀ x ∈ a, p x = true) →
      (a ++ b).takeWhile p = a ++ b.takeWhile p := by
  intro a
  induction a with
  | nil => intro b _; rfl
  | cons c t ih =>
    intro b h
    have hc : p c = true := h c (List.mem_cons_self c t)
    simp [List.cons_append, List.takeWhile_cons, hc,
      ih b (fun x hx => h x (List.mem_cons_of_mem c hx))]

theorem dropWhile_append_sat {p : Char → Bool} :
    ∀ {a : List Char} (b : List Char), (∀ x ∈ a, p x = true) →
      (a ++ b).dropWhile p = b.dropWhile p := by
  intro a
  induction a with
  | nil => intro b _; rfl
  | cons c t ih =>
    intro b h
    have hc : p c = true := h c (List.mem_cons_self c t)
    simp only [List.cons_append, List.dropWhile_cons, hc]
    exact ih b (fun x hx => h x (List.mem_cons_of_mem c hx))

theorem takeWhile_cons_false {p : Char → Bool} {c : Char} (l : List Char)
    (h : p c = false) : (c :: l).takeWhile p = [] := by
  simp [List.takeWhile_cons, h]

theorem dropWhile_cons_false {p : Char → Bool} {c : Char} (l : List Char)
    (h : p c = false) : (c :: l).dropWhile p = c :: l := by
  simp [List.dropWhile_cons, h]

theorem mem_dropWhile_imp {p : Char → Bool} :
    ∀ {l : List Char} {x : Char}, x ∈ l.dropWhile p → x ∈ l := by
  intro l
  induction l with
  | nil => intro x h; simp [List.dropWhile] at h
  | cons c t ih =>
    intro x h
    rw [List.dropWhile_cons] at h
    by_cases hc : p c
    · rw [if_pos hc] at h
      exact List.mem_cons_of_mem c (ih h)
    · rw [if_neg hc] at h
      exact h

theorem breakOn_fst_not_mem (ch : Char) : ∀ l : List Char, ch ∉ (breakOn ch l).1 := by
  intro l
  induction l with
  | nil => simp [breakOn]
  | cons c t ih =>
    rw [breakOn]
    by_cases hc : c = ch
    · rw [if_pos hc]; simp
    · rw [if_neg hc]
      dsimp only
      intro hmem
      rcases List.mem_cons.mp hmem with h | h
      · exact hc h.symm
      · exact ih h

theorem breakOn_fst_sub (ch : Char) :
    ∀ (l : List Char) (x : Char), x ∈ (breakOn ch l).1 → x ∈ l := by
  intro l
  induction l with
  | nil => intro x h; simp [breakOn] at h
  | cons c t ih =>
    intro x h
    rw [breakOn] at h
    by_cases hc : c = ch
    · rw [if_pos hc] at h; simp at h
    · rw [if_neg hc] at h
      dsimp only at h
      rcases List.mem_cons.mp h with h2 | h2
      · exact List.mem_cons.mpr (Or.inl h2)
      · exact List.mem_cons_of_mem c (ih x h2)

theorem breakOn_snd_sub (ch : Char) :
    ∀ (l : List Char) (x : Char), x ∈ (breakOn ch l).2 → x ∈ l := by
  intro l
  induction l with
  | nil => intro x h; simp [breakOn] at h
  | cons c t ih =>
    intro x h
    rw [breakOn] at h
    by_cases hc : c = ch
    · rw [if_pos hc] at h
      exact List.mem_cons_of_mem c h
    · rw [if_neg hc] at h
      dsimp only at h
      exact List.mem_cons_of_mem c (ih x h)

theorem breakOn_of_not_mem (ch : Char) :
    ∀ l : List Char, ch ∉ l → breakOn ch l = (l, []) := by
  intro l
  induction l with
  | nil => intro _; rfl
  | cons c t ih =>
    intro h
    rw [breakOn, if_neg (fun hc => h (List.mem_cons.mpr (Or.inl hc.symm))),
      ih (fun hm => h (List.mem_cons_of_mem c hm))]

theorem breakOn_append_cons (ch : Char) :
    ∀ (a b : List Char), ch ∉ a → breakOn ch (a ++ ch :: b) = (a, b) := by
  intro a
  induction a with
  | nil => intro b _; simp [breakOn]
  | cons c t ih =>
    intro b h
    have hc : ¬ c = ch := fun hc => h (List.mem_cons.mpr (Or.inl hc.symm))
    rw [List.cons_append, breakOn, if_neg hc,
      ih b (fun hm => h (List.mem_cons_of_mem c hm))]

theorem breakOn_append_opt (ch : Char) (a b : List Char) (h : ch ∉ a) :
    breakOn ch (a ++ optPart ch b) = (a, b) := by
  by_cases hb : b = []
  · subst hb
    rw [optPart, if_pos rfl, List.append_nil]
    exact breakOn_of_not_mem ch a h
  · rw [optPart, if_neg hb]
    exact breakOn_append_cons ch a b h

theorem breakOn_cons_ne (ch c : Char) (l : List Char) (h : ¬ c = ch) :
    breakOn ch (c :: l) = (c :: (breakOn ch l).1, (breakOn ch l).2) := by
  rw [breakOn, if_neg h]

theorem breakOn_decomp (ch : Char) :
    ∀ l : List Char, ch ∈ l → l = (breakOn ch l).1 ++ ch :: (breakOn ch l).2 := by
  intro l
  induction l with
  | nil => intro h; simp at h
  | cons c t ih =>
    intro h
    by_cases hc : c = ch
    · subst hc
      rw [breakOn, if_pos rfl]
      rfl
    · rw [breakOn_cons_ne ch c t hc, List.cons_append]
      rcases List.mem_cons.mp h with h2 | h2
      · exact absurd h2.symm hc
      · exact congrArg (c :: ·) (ih h2)

theorem mem_takeWhile_sub {p : Char → Bool} :
    ∀ {l : List Char} {x : Char}, x ∈ l.takeWhile p → x ∈ l := by
  intro l
  induction l with
  | nil => intro x h; simp [List.takeWhile] at h
  | cons c t ih =>
    intro x h
    rw [List.takeWhile_cons] at h
    by_cases hc : p c
    · rw [if_pos hc] at h
      rcases List.mem_cons.mp h with h2 | h2
      · exact List.mem_cons.mpr (Or.inl h2)
      · exact List.mem_cons_of_mem c (ih h2)
    · rw [if_neg hc] at h
      simp at h

theorem dropWhile_shape {p : Char → Bool} (l : List Char) :
    l.dropWhile p = [] ∨ ∃ c t, l.dropWhile p = c :: t ∧ p c = false := by
  induction l with
  | nil => left; rfl
  | cons a t ih =>
    rw [List.dropWhile_cons]
    by_cases ha : p a
    · rw [if_pos ha]; exact ih
    · rw [if_neg ha]
      right
      exact ⟨a, t, rfl, by simpa using ha⟩

theorem takeWhile_dropWhile_nil {p : Char → Bool} (l : List Char) :
    (l.dropWhile p).takeWhile p = [] := by
  rcases dropWhile_shape l with h | ⟨c, t, h, hc⟩
  · rw [h]
    rfl
  · rw [h]
    exact takeWhile_cons_false t hc

theorem dropWhile_idem {p : Char → Bool} (l : List Char) :
    (l.dropWhile p).dropWhile p = l.dropWhile p := by
  rcases dropWhile_shape l with h | ⟨c, t, h, hc⟩
  · rw [h]
    rfl
  · rw [h]
    exact dropWhile_cons_false t hc

theorem segPre_append_lastSeg (p : List Char) : segPre p ++ lastSeg p = p := by
  rw [segPre, lastSeg, ← List.reverse_append, List.takeWhile_append_dropWhile,
    List.reverse_reverse]

theorem lastSeg_no_slash (p : List Char) : '/' ∉ lastSeg p := by
  rw [lastSeg]
  intro h
  rw [List.mem_reverse] at h
  have h2 := List.mem_takeWhile_imp h
  simp at h2

theorem mem_lastSeg_sub (p : List Char) (x : Char) (h : x ∈ lastSeg p) : x ∈ p := by
  rw [lastSeg, List.mem_reverse] at h
  have h2 := mem_takeWhile_sub h
  rw [List.mem_reverse] at h2
  exact h2

theorem mem_segPre_sub (p : List Char) (x : Char) (h : x ∈ segPre p) : x ∈ p := by
  rw [segPre, List.mem_reverse] at h
  have h2 := mem_dropWhile_imp h
  rw [List.mem_reverse] at h2
  exact h2

theorem lastSeg_append (a b : List Char) (h : '/' ∉ b) :
    lastSeg (a ++ b) = lastSeg a ++ b := by
  have hsat : ∀ x ∈ b.reverse, (fun c => decide (c ≠ '/')) x = true := by
    intro x hx
    rw [List.mem_reverse] at hx
    exact decide_eq_true (fun he => h (he ▸ hx))
  rw [lastSeg, lastSeg, List.reverse_append, takeWhile_append_sat _ hsat,
    List.reverse_append, List.reverse_reverse]

theorem segPre_append (a b : List Char) (h : '/' ∉ b) :
    segPre (a ++ b) = segPre a := by
  have hsat : ∀ x ∈ b.reverse, (fun c => decide (c ≠ '/')) x = true := by
    intro x hx
    rw [List.mem_reverse] at hx
    exact decide_eq_true (fun he => h (he ▸ hx))
  rw [segPre, segPre, List.reverse_append, dropWhile_append_sat _ hsat]

theorem segPre_idem (p : List Char) : segPre (segPre p) = segPre p := by
  rw [segPre, segPre, List.reverse_reverse, dropWhile_idem]

theorem lastSeg_segPre_append (p a : List Char) (h : '/' ∉ a) :
    lastSeg (segPre p ++ a) = a := by
  rw [lastSeg_append _ _ h, lastSeg, segPre, List.reverse_reverse,
    takeWhile_dropWhile_nil]
  rfl

theorem paramsStage_mem (q1 path params : List Char)
    (h : (if ';' ∈ q1 then splitParams q1 else (q1, [])) = (path, params)) :
    (∀ x ∈ path, x ∈ q1) ∧ ∀ x ∈ params, x ∈ q1 := by
  by_cases hq : ';' ∈ q1
  · rw [if_pos hq, splitParams] at h
    rw [Prod.mk.injEq] at h
    obtain ⟨hpath, hparams⟩ := h
    constructor
    · intro x hx
      rw [← hpath] at hx
      rcases List.mem_append.mp hx with h2 | h2
      · exact mem_segPre_sub q1 x h2
      · exact mem_lastSeg_sub q1 x (breakOn_fst_sub ';' (lastSeg q1) x h2)
    · intro x hx
      rw [← hparams] at hx
      exact mem_lastSeg_sub q1 x (breakOn_snd_sub ';' (lastSeg q1) x hx)
  · rw [if_neg hq, Prod.mk.injEq] at h
    obtain ⟨hpath, hparams⟩ := h
    subst hpath
    subst hparams
    exact ⟨fun x hx => hx, by simp⟩

theorem paramsStage_roundtrip (q1 path params : List Char)
    (h : (if ';' ∈ q1 then splitParams q1 else (q1, [])) = (path, params)) :
    (if ';' ∈ (path ++ optPart ';' params) then splitParams (path ++ optPart ';' params)
     else (path ++ optPart ';' params, [])) = (path, params) := by
  by_cases hq : ';' ∈ q1
  · rw [if_pos hq, splitParams] at h
    rw [Prod.mk.injEq] at h
    obtain ⟨hpath, hparams⟩ := h
    have hnoslash_a : '/' ∉ (breakOn ';' (lastSeg q1)).1 := fun hm =>
      lastSeg_no_slash q1 (breakOn_fst_sub ';' (lastSeg q1) '/' hm)
    have hnosemi_a : ';' ∉ (breakOn ';' (lastSeg q1)).1 := breakOn_fst_not_mem ';' _
    by_cases hb : (breakOn ';' (lastSeg q1)).2 = []
    · rw [hb] at hparams
      subst hparams
      rw [optPart, if_pos rfl, List.append_nil]
      by_cases hu : ';' ∈ path
      · rw [if_pos hu, splitParams, ← hpath]
        rw [lastSeg_segPre_append q1 _ hnoslash_a,
          breakOn_of_not_mem ';' _ hnosemi_a]
        dsimp only
        rw [segPre_append _ _ hnoslash_a, segPre_idem]
      · rw [if_neg hu]
    · have hsemi : ';' ∈ lastSeg q1 := by
        by_contra hns
        rw [breakOn_of_not_mem ';' _ hns] at hb
        exact hb rfl
      have hnoslash_b : '/' ∉ (breakOn ';' (lastSeg q1)).2 := fun hm =>
        lastSeg_no_slash q1 (breakOn_snd_sub ';' (lastSeg q1) '/' hm)
      rw [← hpath, ← hparams]
      rw [optPart, if_neg hb]
      have hmem : ';' ∈ (segPre q1 ++ (breakOn ';' (lastSeg q1)).1) ++
          ';' :: (breakOn ';' (lastSeg q1)).2 := by
        rw [List.mem_append]
        right
        exact List.mem_cons_self _ _
      rw [if_pos hmem, splitParams]
      have hnoslash_cb : '/' ∉ ';' :: (breakOn ';' (lastSeg q1)).2 := by
        intro hm
        rcases List.mem_cons.mp hm with h2 | h2
        · exact absurd h2 (by decide)
        · exact hnoslash_b h2
      rw [lastSeg_append _ _ hnoslash_cb, lastSeg_segPre_append q1 _ hnoslash_a,
        breakOn_append_cons ';' _ _ hnosemi_a]
      dsimp only
      rw [segPre_append _ _ hnoslash_cb, segPre_append _ _ hnoslash_a, segPre_idem]
  · rw [if_neg hq, Prod.mk.injEq] at h
    obtain ⟨hpath, hparams⟩ := h
    subst hpath
    subst hparams
    rw [optPart, if_pos rfl, List.append_nil, if_neg hq]

theorem splitScheme_https (rest : List Char) :
    splitScheme (httpsChars ++ ':' :: rest) = (httpsChars, rest) := by
  simp only [splitScheme]
  rw [show (httpsChars ++ ':' :: rest).takeWhile (· ≠ ':') = httpsChars from rfl]
  rw [if_pos]
  · rw [Prod.mk.injEq]
    constructor
    · decide
    · rw [show httpsChars.length + 1 = 6 from rfl]
      rfl
  · refine ⟨?_, by decide, by decide, by decide⟩
    rw [List.length_append]
    have : httpsChars.length = 5 := rfl
    rw [this]
    simp

theorem splitScheme_fst_nil (u : List Char) (h : (splitScheme u).1 = []) :
    splitScheme u = ([], u) := by
  by_cases hcond : ((u.takeWhile (· ≠ ':')).length < u.length ∧
      u.takeWhile (· ≠ ':') ≠ [] ∧ ((u.takeWhile (· ≠ ':')).headD ' ').isAlpha ∧
      (u.takeWhile (· ≠ ':')).all schemeChar)
  · exfalso
    simp only [splitScheme] at h
    rw [if_pos hcond] at h
    dsimp only at h
    exact hcond.2.1 (List.map_eq_nil_iff.mp h)
  · simp only [splitScheme]
    rw [if_neg hcond]

theorem splitNetloc_cons_slash (X : List Char) :
    splitNetloc ('/' :: '/' :: X) =
      (X.takeWhile (fun c => !netlocDelim c), X.dropWhile (fun c => !netlocDelim c)) := by
  rw [splitNetloc, if_pos ⟨rfl, rfl⟩]

theorem splitNetloc_fst_ne_nil (l : List Char) (h : (splitNetloc l).1 ≠ []) :
    ∃ r, l = '/' :: '/' :: r := by
  match l with
  | [] => exact absurd rfl h
  | [c] => exact absurd rfl h
  | c1 :: c2 :: r =>
    by_cases hc : c1 = '/' ∧ c2 = '/'
    · exact ⟨r, by rw [hc.1, hc.2]⟩
    · rw [splitNetloc, if_neg hc] at h
      exact absurd rfl h

theorem netloc_scan (nl tail : List Char) (hnl : ∀ x ∈ nl, netlocDelim x = false)
    (htail : tail = [] ∨ ∃ c t, tail = c :: t ∧ netlocDelim c = true) :
    (nl ++ tail).takeWhile (fun c => !netlocDelim c) = nl ∧
      (nl ++ tail).dropWhile (fun c => !netlocDelim c) = tail := by
  have hsat : ∀ x ∈ nl, (fun c => !netlocDelim c) x = true := by
    intro x hx
    have hx2 := hnl x hx
    simp [hx2]
  constructor
  · rw [takeWhile_append_sat _ hsat]
    rcases htail with rfl | ⟨c, t, rfl, hc⟩
    · rw [List.takeWhile_nil, List.append_nil]
    · rw [takeWhile_cons_false _ (by rw [hc]; rfl), List.append_nil]
  · rw [dropWhile_append_sat _ hsat]
    rcases htail with rfl | ⟨c, t, rfl, hc⟩
    · rfl
    · exact dropWhile_cons_false _ (by rw [hc]; rfl)

theorem segPre_ne_nil_of_mem (p : List Char) (h : '/' ∈ p) : segPre p ≠ [] := by
  rw [segPre]
  intro he
  rw [List.reverse_eq_nil_iff, List.dropWhile_eq_nil_iff] at he
  have := he '/' (List.mem_reverse.mpr h)
  simp at this

theorem urlparse_unfold (v : List Char) :
    urlparse v =
      ⟨(splitScheme v).1,
       (splitNetloc (splitScheme v).2).1,
       (if (splitScheme v).1 ∈ uses_params ∧
           ';' ∈ (breakOn '?' (breakOn '#' (splitNetloc (splitScheme v).2).2).1).1 then
          splitParams (breakOn '?' (breakOn '#' (splitNetloc (splitScheme v).2).2).1).1
        else ((breakOn '?' (breakOn '#' (splitNetloc (splitScheme v).2).2).1).1, [])).1,
       (if (splitScheme v).1 ∈ uses_params ∧
           ';' ∈ (breakOn '?' (breakOn '#' (splitNetloc (splitScheme v).2).2).1).1 then
          splitParams (breakOn '?' (breakOn '#' (splitNetloc (splitScheme v).2).2).1).1
        else ((breakOn '?' (breakOn '#' (splitNetloc (splitScheme v).2).2).1).1, [])).2,
       (breakOn '?' (breakOn '#' (splitNetloc (splitScheme v).2).2).1).2,
       (breakOn '#' (splitNetloc (splitScheme v).2).2).2⟩ := rfl

theorem reparse_core (nl r2 f1 fr q1 qu path params : List Char)
    (hnl : ∀ x ∈ nl, netlocDelim x = false)
    (hnl_ne : nl ≠ [])
    (hr2 : r2 = [] ∨ ∃ c t, r2 = c :: t ∧ netlocDelim c = true)
    (hbf : breakOn '#' r2 = (f1, fr))
    (hbq : breakOn '?' f1 = (q1, qu))
    (hpp : (if ';' ∈ q1 then splitParams q1 else (q1, [])) = (path, params)) :
    urlparse (urlunparse ⟨httpsChars, nl, path, params, qu, fr⟩) =
      ⟨httpsChars, nl, path, params, qu, fr⟩ := by
  have hf1hash : '#' ∉ f1 := by
    have h2 := breakOn_fst_not_mem '#' r2
    rw [hbf] at h2
    exact h2
  have hq1q : '?' ∉ q1 := by
    have h2 := breakOn_fst_not_mem '?' f1
    rw [hbq] at h2
    exact h2
  have hq1sub : ∀ x ∈ q1, x ∈ f1 := by
    intro x hx
    have h2 := breakOn_fst_sub '?' f1 x
    rw [hbq] at h2
    exact h2 hx
  have hqusub : ∀ x ∈ qu, x ∈ f1 := by
    intro x hx
    have h2 := breakOn_snd_sub '?' f1 x
    rw [hbq] at h2
    exact h2 hx
  have hq1hash : '#' ∉ q1 := fun hm => hf1hash (hq1sub _ hm)
  have hquhash : '#' ∉ qu := fun hm => hf1hash (hqusub _ hm)
  obtain ⟨hpathmem, hparamsmem⟩ := paramsStage_mem q1 path params hpp
  have hurl0mem : ∀ x ∈ path ++ optPart ';' params, x ∈ q1 ∨ x = ';' := by
    intro x hx
    rcases List.mem_append.mp hx with h2 | h2
    · exact Or.inl (hpathmem x h2)
    · by_cases hpe : params = []
      · rw [hpe, optPart, if_pos rfl] at h2
        simp at h2
      · rw [optPart, if_neg hpe] at h2
        rcases List.mem_cons.mp h2 with h3 | h3
        · exact Or.inr h3
        · exact Or.inl (hparamsmem x h3)
  have hu0hash : '#' ∉ path ++ optPart ';' params := by
    intro hm
    rcases hurl0mem _ hm with h2 | h2
    · exact hq1hash h2
    · exact absurd h2 (by decide)
  have hu0q : '?' ∉ path ++ optPart ';' params := by
    intro hm
    rcases hurl0mem _ hm with h2 | h2
    · exact hq1q h2
    · exact absurd h2 (by decide)
  have hshape : path ++ optPart ';' params = [] ∨
      (path ++ optPart ';' params).take 1 = ['/'] := by
    rcases hr2 with rfl | ⟨c, t, rfl, hc⟩
    · rw [show breakOn '#' ([] : List Char) = ([], []) from rfl] at hbf
      obtain ⟨rfl, rfl⟩ := Prod.mk.injEq _ _ _ _ |>.mp hbf
      rw [show breakOn '?' ([] : List Char) = ([], []) from rfl] at hbq
      obtain ⟨rfl, rfl⟩ := Prod.mk.injEq _ _ _ _ |>.mp hbq
      rw [if_neg (by simp)] at hpp
      obtain ⟨rfl, rfl⟩ := Prod.mk.injEq _ _ _ _ |>.mp hpp
      left
      rfl
    · have hc3 : c = '/' ∨ c = '?' ∨ c = '#' := by
        simpa [netlocDelim, Bool.or_eq_true, decide_eq_true_eq, or_assoc] using hc
      rcases hc3 with rfl | rfl | rfl
      · rw [breakOn_cons_ne '#' '/' t (by decide)] at hbf
        obtain ⟨hf1, -⟩ := Prod.mk.injEq _ _ _ _ |>.mp hbf
        rw [← hf1, breakOn_cons_ne '?' '/' _ (by decide)] at hbq
        obtain ⟨hq1, -⟩ := Prod.mk.injEq _ _ _ _ |>.mp hbq
        by_cases hsq : ';' ∈ q1
        · rw [if_pos hsq, splitParams] at hpp
          obtain ⟨hpath, -⟩ := Prod.mk.injEq _ _ _ _ |>.mp hpp
          have hslash : '/' ∈ q1 := by
            rw [← hq1]
            exact List.mem_cons_self _ _
          have hne := segPre_ne_nil_of_mem q1 hslash
          obtain ⟨c0, s, hsp⟩ : ∃ c0 s, segPre q1 = c0 :: s := by
            cases hsegeq : segPre q1 with
            | nil => exact absurd hsegeq hne
            | cons c0 s => exact ⟨c0, s, rfl⟩
          have hc0 : c0 = '/' := by
            have h3 := segPre_append_lastSeg q1
            rw [hsp, ← hq1, List.cons_append] at h3
            exact (List.cons.injEq _ _ _ _ |>.mp h3).1
          right
          rw [← hpath, hsp, hc0, List.cons_append, List.cons_append]
          rfl
        · rw [if_neg hsq] at hpp
          obtain ⟨hpath, -⟩ := Prod.mk.injEq _ _ _ _ |>.mp hpp
          right
          rw [← hpath, ← hq1, List.cons_append]
          rfl
      · rw [breakOn_cons_ne '#' '?' t (by decide)] at hbf
        obtain ⟨hf1, -⟩ := Prod.mk.injEq _ _ _ _ |>.mp hbf
        rw [← hf1, breakOn, if_pos rfl] at hbq
        obtain ⟨hq1, -⟩ := Prod.mk.injEq _ _ _ _ |>.mp hbq
        rw [← hq1] at hpp
        rw [if_neg (by simp)] at hpp
        obtain ⟨rfl, rfl⟩ := Prod.mk.injEq _ _ _ _ |>.mp hpp
        left
        rfl
      · rw [breakOn, if_pos rfl] at hbf
        obtain ⟨hf1, -⟩ := Prod.mk.injEq _ _ _ _ |>.mp hbf
        rw [← hf1] at hbq
        rw [show breakOn '?' ([] : List Char) = ([], []) from rfl] at hbq
        obtain ⟨hq1, -⟩ := Prod.mk.injEq _ _ _ _ |>.mp hbq
        rw [← hq1] at hpp
        rw [if_neg (by simp)] at hpp
        obtain ⟨rfl, rfl⟩ := Prod.mk.injEq _ _ _ _ |>.mp hpp
        left
        rfl
  have hinner : ¬((path ++ optPart ';' params) ≠ [] ∧
      (path ++ optPart ';' params).take 1 ≠ ['/']) := by
    rcases hshape with h2 | h2
    · intro hcon
      exact hcon.1 h2
    · intro hcon
      exact hcon.2 h2
  have hout : urlunparse ⟨httpsChars, nl, path, params, qu, fr⟩ =
      httpsChars ++ ':' :: '/' :: '/' ::
        (nl ++ ((path ++ optPart ';' params) ++ optPart '?' qu ++ optPart '#' fr)) := by
    simp only [urlunparse]
    rw [if_pos (Or.inl hnl_ne), if_neg hinner,
      if_neg (show ¬(httpsChars = []) by decide)]
    simp [List.append_assoc]
  have htailshape : (path ++ optPart ';' params) ++ optPart '?' qu ++ optPart '#' fr = [] ∨
      ∃ c t, (path ++ optPart ';' params) ++ optPart '?' qu ++ optPart '#' fr = c :: t ∧
        netlocDelim c = true := by
    rcases hshape with h2 | h2
    · rw [h2, List.nil_append]
      by_cases hq : qu = []
      · rw [hq, optPart, if_pos rfl, List.nil_append]
        by_cases hf : fr = []
        · rw [hf, optPart, if_pos rfl]
          left
          rfl
        · rw [optPart, if_neg hf]
          right
          exact ⟨'#', fr, rfl, by decide⟩
      · rw [optPart, if_neg hq]
        right
        exact ⟨'?', qu ++ optPart '#' fr, by rw [List.cons_append], by decide⟩
    · obtain ⟨u0, hu0⟩ : ∃ u0, path ++ optPart ';' params = '/' :: u0 := by
        cases hpe : path ++ optPart ';' params with
        | nil =>
          rw [hpe] at h2
          simp at h2
        | cons a b =>
          rw [hpe] at h2
          simp [List.take] at h2
          exact ⟨b, by rw [h2]⟩
      right
      exact ⟨'/', u0 ++ optPart '?' qu ++ optPart '#' fr,
        by rw [hu0, List.cons_append, List.cons_append], by decide⟩
  have hu0qhash : '#' ∉ (path ++ optPart ';' params) ++ optPart '?' qu := by
    intro hm
    rcases List.mem_append.mp hm with h2 | h2
    · exact hu0hash h2
    · by_cases hq : qu = []
      · rw [hq, optPart, if_pos rfl] at h2
        simp at h2
      · rw [optPart, if_neg hq] at h2
        rcases List.mem_cons.mp h2 with h3 | h3
        · exact absurd h3 (by decide)
        · exact hquhash h3
  rw [hout, urlparse_unfold, splitScheme_https]
  dsimp only
  rw [splitNetloc_cons_slash]
  obtain ⟨htw, hdw⟩ := netloc_scan nl
    ((path ++ optPart ';' params) ++ optPart '?' qu ++ optPart '#' fr) hnl htailshape
  dsimp only
  rw [htw, hdw, breakOn_append_opt '#' _ fr hu0qhash]
  dsimp only
  rw [breakOn_append_opt '?' _ qu hu0q]
  dsimp only
  have hsplit2 := paramsStage_roundtrip q1 path params hpp
  have hC : (if httpsChars ∈ uses_params ∧ ';' ∈ path ++ optPart ';' params then
      splitParams (path ++ optPart ';' params)
    else (path ++ optPart ';' params, [])) = (path, params) := by
    by_cases hsem : ';' ∈ path ++ optPart ';' params
    · rw [if_pos ⟨by decide, hsem⟩]
      rw [if_pos hsem] at hsplit2
      exact hsplit2
    · rw [if_neg (fun hcon => hsem hcon.2)]
      rw [if_neg hsem] at hsplit2
      exact hsplit2
  rw [hC]

theorem urlunparse_https_shape (c : UrlParts) (hs : c.scheme = httpsChars) :
    ∃ rest, urlunparse c = httpsChars ++ ':' :: rest := by
  refine ⟨(if c.netloc ≠ [] ∨ (c.scheme ≠ [] ∧ c.scheme ∈ uses_netloc ∧
      (c.path ++ optPart ';' c.params).take 2 ≠ ['/', '/']) then
        '/' :: '/' :: (c.netloc ++ (if (c.path ++ optPart ';' c.params) ≠ [] ∧
          (c.path ++ optPart ';' c.params).take 1 ≠ ['/'] then
            '/' :: (c.path ++ optPart ';' c.params)
          else (c.path ++ optPart ';' c.params)))
      else (c.path ++ optPart ';' c.params)) ++ optPart '?' c.query ++
      optPart '#' c.fragment, ?_⟩
  simp only [urlunparse]
  rw [if_neg (show ¬(c.scheme = []) by rw [hs]; decide), hs]
  simp [List.append_assoc]

/-- C10 counterexample: on the schemeless URL `example.com/foo` the function
returns `https:///example.com/foo` — an empty network location and a `/`
prepended to the path — which is not the same URL with the `https` scheme
added, neither textually nor by parsed components. -/
theorem add_https_scheme_counterexample :
    add_https_scheme ("example.com/foo".data) = ("https:///example.com/foo".data) ∧
    (urlparse ("example.com/foo".data)).scheme = [] ∧
    add_https_scheme ("example.com/foo".data) ≠
      httpsChars ++ ':' :: ("example.com/foo".data) ∧
    urlparse (add_https_scheme ("example.com/foo".data)) ≠
      { urlparse ("example.com/foo".data) with scheme := httpsChars } := by
  refine ⟨by decide, by decide, by decide, by decide⟩

/-- C10 amended: `add_https_scheme` returns a URL with a scheme unchanged; on
a schemeless URL it returns a URL whose parsed scheme is `https`, and when
the schemeless URL carries a network location (the protocol-relative `//...`
form the repository applies it to) the result parses to exactly the input's
components with scheme `https`; the function is idempotent on every URL. -/
theorem add_https_scheme_spec (u : List Char) :
    ((urlparse u).scheme ≠ [] → add_https_scheme u = u) ∧
    ((urlparse u).scheme = [] → (urlparse (add_https_scheme u)).scheme = httpsChars) ∧
    ((urlparse u).scheme = [] → (urlparse u).netloc ≠ [] →
      urlparse (add_https_scheme u) = { urlparse u with scheme := httpsChars }) ∧
    add_https_scheme (add_https_scheme u) = add_https_scheme u := by
  have hbr1 : ∀ v : List Char, (urlparse v).scheme ≠ [] → add_https_scheme v = v := by
    intro v hv
    simp only [add_https_scheme]
    rw [if_pos hv]
  have hbr2 : ∀ v : List Char, (urlparse v).scheme = [] →
      (urlparse (add_https_scheme v)).scheme = httpsChars := by
    intro v hv
    simp only [add_https_scheme]
    rw [if_neg (by simp [hv])]
    obtain ⟨rest, hrw⟩ := urlunparse_https_shape { urlparse v with scheme := httpsChars } rfl
    rw [hrw, urlparse_unfold, splitScheme_https]
  refine ⟨hbr1 u, hbr2 u, ?_, ?_⟩
  · intro hs hn
    cases hc : urlparse u with
    | mk sch nl path params qu fr =>
      rw [hc] at hs hn
      dsimp only at hs hn
      have hcomp := urlparse_unfold u
      rw [hc, UrlParts.mk.injEq] at hcomp
      obtain ⟨e1, e2, e3, e4, e5, e6⟩ := hcomp
      have hss : splitScheme u = ([], u) := splitScheme_fst_nil u (by rw [← e1, hs])
      have e2' : nl = (splitNetloc u).1 := by
        rw [e2, hss]
      have hn2 : (splitNetloc u).1 ≠ [] := by
        rw [← e2']
        exact hn
      obtain ⟨r, rfl⟩ := splitNetloc_fst_ne_nil u hn2
      have hns := splitNetloc_cons_slash r
      have e2'' : nl = r.takeWhile (fun c => !netlocDelim c) := by
        rw [e2', hns]
      have hnlmem : ∀ x ∈ r.takeWhile (fun c => !netlocDelim c), netlocDelim x = false := by
        intro x hx
        have h2 := List.mem_takeWhile_imp hx
        simpa using h2
      have hnl_ne : r.takeWhile (fun c => !netlocDelim c) ≠ [] := by
        rw [← e2'']
        exact hn
      have hr2shape : r.dropWhile (fun c => !netlocDelim c) = [] ∨
          ∃ c t, r.dropWhile (fun c => !netlocDelim c) = c :: t ∧ netlocDelim c = true := by
        rcases dropWhile_shape (p := fun c => !netlocDelim c) r with h2 | ⟨c, t, h2, hcf⟩
        · exact Or.inl h2
        · exact Or.inr ⟨c, t, h2, by simpa using hcf⟩
      have e6' : fr = (breakOn '#' (r.dropWhile (fun c => !netlocDelim c))).2 := by
        rw [e6, hss]
        rw [show (splitNetloc (([], '/' :: '/' :: r) : List Char × List Char).2) =
          splitNetloc ('/' :: '/' :: r) from rfl, hns]
      have e5' : qu = (breakOn '?'
          (breakOn '#' (r.dropWhile (fun c => !netlocDelim c))).1).2 := by
        rw [e5, hss]
        rw [show (splitNetloc (([], '/' :: '/' :: r) : List Char × List Char).2) =
          splitNetloc ('/' :: '/' :: r) from rfl, hns]
      have hbf : breakOn '#' (r.dropWhile (fun c => !netlocDelim c)) =
          ((breakOn '#' (r.dropWhile (fun c => !netlocDelim c))).1, fr) := by
        rw [e6']
      have hbq : breakOn '?' (breakOn '#' (r.dropWhile (fun c => !netlocDelim c))).1 =
          ((breakOn '?' (breakOn '#' (r.dropWhile (fun c => !netlocDelim c))).1).1, qu) := by
        rw [e5']
      have hP : (if (([] : List Char) ∈ uses_params ∧
          ';' ∈ (breakOn '?' (breakOn '#' (r.dropWhile (fun c => !netlocDelim c))).1).1) then
            splitParams (breakOn '?'
              (breakOn '#' (r.dropWhile (fun c => !netlocDelim c))).1).1
          else ((breakOn '?' (breakOn '#' (r.dropWhile (fun c => !netlocDelim c))).1).1,
            [])) =
          (if ';' ∈ (breakOn '?' (breakOn '#' (r.dropWhile (fun c => !netlocDelim c))).1).1 then
            splitParams (breakOn '?'
              (breakOn '#' (r.dropWhile (fun c => !netlocDelim c))).1).1
          else ((breakOn '?' (breakOn '#' (r.dropWhile (fun c => !netlocDelim c))).1).1,
            [])) := by
        by_cases hsem : ';' ∈ (breakOn '?'
            (breakOn '#' (r.dropWhile (fun c => !netlocDelim c))).1).1
        · rw [if_pos ⟨by decide, hsem⟩, if_pos hsem]
        · rw [if_neg (fun hcon => hsem hcon.2), if_neg hsem]
      have e34 : ∀ w : List Char × List Char,
          path = w.1 → params = w.2 → w = (path, params) := by
        intro w h1 h2
        rw [h1, h2]
      have e3' : path = (if (([] : List Char) ∈ uses_params ∧
          ';' ∈ (breakOn '?' (breakOn '#' (r.dropWhile (fun c => !netlocDelim c))).1).1) then
            splitParams (breakOn '?'
              (breakOn '#' (r.dropWhile (fun c => !netlocDelim c))).1).1
          else ((breakOn '?' (breakOn '#' (r.dropWhile (fun c => !netlocDelim c))).1).1,
            [])).1 := by
        rw [e3, hss]
        rw [show (splitNetloc (([], '/' :: '/' :: r) : List Char × List Char).2) =
          splitNetloc ('/' :: '/' :: r) from rfl, hns]
      have e4' : params = (if (([] : List Char) ∈ uses_params ∧
          ';' ∈ (breakOn '?' (breakOn '#' (r.dropWhile (fun c => !netlocDelim c))).1).1) then
            splitParams (breakOn '?'
              (breakOn '#' (r.dropWhile (fun c => !netlocDelim c))).1).1
          else ((breakOn '?' (breakOn '#' (r.dropWhile (fun c => !netlocDelim c))).1).1,
            [])).2 := by
        rw [e4, hss]
        rw [show (splitNetloc (([], '/' :: '/' :: r) : List Char × List Char).2) =
          splitNetloc ('/' :: '/' :: r) from rfl, hns]
      have hpp : (if ';' ∈ (breakOn '?'
          (breakOn '#' (r.dropWhile (fun c => !netlocDelim c))).1).1 then
            splitParams (breakOn '?'
              (breakOn '#' (r.dropWhile (fun c => !netlocDelim c))).1).1
          else ((breakOn '?' (breakOn '#' (r.dropWhile (fun c => !netlocDelim c))).1).1,
            [])) = (path, params) := by
        rw [← hP]
        exact (e34 _ e3' e4').symm.symm ▸ (e34 _ e3' e4')
      have hfinal := reparse_core (r.takeWhile (fun c => !netlocDelim c))
        (r.dropWhile (fun c => !netlocDelim c))
        (breakOn '#' (r.dropWhile (fun c => !netlocDelim c))).1 fr
        (breakOn '?' (breakOn '#' (r.dropWhile (fun c => !netlocDelim c))).1).1 qu
        path params hnlmem hnl_ne hr2shape hbf hbq hpp
      rw [← e2''] at hfinal
      simp only [add_https_scheme]
      rw [hc]
      dsimp only
      rw [if_neg (fun hcon => hcon hs)]
      exact hfinal
  · by_cases hs : (urlparse u).scheme = []
    · exact hbr1 _ (by rw [hbr2 u hs]; decide)
    · have h2 := hbr1 u hs
      rw [h2, h2]

/-- Witness for C10 amended at a protocol-relative IGDB image URL. -/
theorem add_https_scheme_spec_witness :
    (urlparse ("//images.igdb.com/igdb/image/upload/t_thumb/co1r7f.jpg".data)).scheme =
      [] ∧
    (urlparse ("//images.igdb.com/igdb/image/upload/t_thumb/co1r7f.jpg".data)).netloc ≠
      [] ∧
    urlparse (add_https_scheme
        ("//images.igdb.com/igdb/image/upload/t_thumb/co1r7f.jpg".data)) =
      { urlparse ("//images.igdb.com/igdb/image/upload/t_thumb/co1r7f.jpg".data) with
        scheme := httpsChars } ∧
    add_https_scheme (add_https_scheme
        ("//images.igdb.com/igdb/image/upload/t_thumb/co1r7f.jpg".data)) =
      add_https_scheme ("//images.igdb.com/igdb/image/upload/t_thumb/co1r7f.jpg".data) := by
  have h := add_https_scheme_spec
    ("//images.igdb.com/igdb/image/upload/t_thumb/co1r7f.jpg".data)
  exact ⟨by decide, by decide, h.2.2.1 (by decide) (by decide), h.2.2.2⟩
